import Mathlib

/-!
Verification of the TRENT-OS `test_uart` component.

The development shallowly embeds the C sources:
* `src/ringbuffer.h` — the fixed-capacity circular byte store
  (`ringbuffer_t`, `ringbuffer_write`, `ringbuffer_read`, `ringbuffer_flush`,
  `ringbuffer_getReadPtr`, `ringbuffer_getCappedLen`, queries);
* `src/uart_tester.c` — the stream validator (`do_process`), the processing
  stage (`process_data`) and the ingestion loop (`blocking_read`, `run`);
* `src/unnamed/part_003` — the earlier revision of the tester whose
  `process_data` bounds each validator pass by a watermark-biased quota.

Machine bytes are modelled as `Nat` values; the `uint8_t` truncations of the C
code appear as explicit `% 256`.  Byte memory is modelled as a total function
`Nat → Nat`; `memcpy` into a region becomes an update of that function on the
copied index range.  The blocking ingestion loop is driven by a list of
observations of the producer-owned dataport FIFO (contiguous readable run and
overflow byte), one observation per loop iteration.
-/

/-- Result codes from `OS_Error.h` that `uart_tester.c` uses. -/
inductive OS_Error where
  | OS_SUCCESS
  | OS_ERROR_GENERIC
  | OS_ERROR_INVALID_STATE
  | OS_ERROR_OVERFLOW_DETECTED
deriving DecidableEq, Repr

/-- The ring buffer state, from `ringbuffer.h`.  `buffer` models the backing
byte storage as a total function from offsets to byte values; only offsets
below `capacity` are ever read or written by the operations. -/
structure ringbuffer_t where
  buffer : Nat → Nat
  capacity : Nat
  head : Nat
  used : Nat

/-- The consistency invariant maintained by the ring buffer (asserted
throughout `ringbuffer.h`): `used ≤ capacity`, and `head < capacity` whenever
the capacity is nonzero. -/
def ringbuffer_Inv (self : ringbuffer_t) : Prop :=
  self.used ≤ self.capacity ∧ (self.capacity = 0 ∨ self.head < self.capacity)

instance (self : ringbuffer_t) : Decidable (ringbuffer_Inv self) := by
  unfold ringbuffer_Inv; infer_instance

/-- `memcpy(&dst[pos], src, len)`: overwrite the `len` bytes of `dst`
starting at `pos` with the first `len` bytes of `src`. -/
def memcpyIn (dst : Nat → Nat) (pos : Nat) (src : List Nat) (len : Nat) :
    Nat → Nat :=
  fun i => if pos ≤ i ∧ i < pos + len then src.getD (i - pos) 0 else dst i

/-- `ringbuffer_getCappedLen`: cap `len` to the space between `pos` and the
physical end of the storage. -/
def ringbuffer_getCappedLen (self : ringbuffer_t) (pos len : Nat) : Nat :=
  if pos ≥ self.capacity then 0
  else
    let len_remaining := self.capacity - pos
    if len > len_remaining then len_remaining else len

/-- `ringbuffer_clear`. -/
def ringbuffer_clear (self : ringbuffer_t) : ringbuffer_t :=
  { self with head := 0, used := 0 }

/-- `ringbuffer_getCapacity`. -/
def ringbuffer_getCapacity (self : ringbuffer_t) : Nat :=
  self.capacity

/-- `ringbuffer_getUsed`. -/
def ringbuffer_getUsed (self : ringbuffer_t) : Nat :=
  self.used

/-- `ringbuffer_isEmpty`. -/
def ringbuffer_isEmpty (self : ringbuffer_t) : Bool :=
  self.used = 0

/-- `ringbuffer_getFree`. -/
def ringbuffer_getFree (self : ringbuffer_t) : Nat :=
  self.capacity - self.used

/-- `ringbuffer_isFull`. -/
def ringbuffer_isFull (self : ringbuffer_t) : Bool :=
  self.capacity = self.used

/-- `ringbuffer_init(self, buffer, len)`: bind the storage, set the capacity
and clear. -/
def ringbuffer_init (storage : Nat → Nat) (len : Nat) : ringbuffer_t :=
  ringbuffer_clear { buffer := storage, capacity := len, head := 0, used := 0 }

/-- `ringbuffer_write(self, src, len)`: copy `min(len, free)` bytes of `src`
to the free position `(head + used) % capacity`, in one `memcpy` or — when the
destination range wraps past the end of the storage — two.  Returns the new
state and the count actually written. -/
def ringbuffer_write (self : ringbuffer_t) (src : List Nat) (len0 : Nat) :
    ringbuffer_t × Nat :=
  let used := self.used
  let free := self.capacity - used
  let len := if len0 > free then free else len0
  if 0 < len then
    let pos_free := (self.head + used) % self.capacity
    let len1 := ringbuffer_getCappedLen self pos_free len
    let buf1 := memcpyIn self.buffer pos_free src len1
    let buf2 :=
      if len1 < len then memcpyIn buf1 0 (src.drop len1) (len - len1) else buf1
    ({ self with buffer := buf2, used := used + len }, len)
  else
    (self, len)

/-- The number of `memcpy` calls `ringbuffer_write` performs for a request of
`len0` bytes on state `self`. -/
def ringbuffer_write_copies (self : ringbuffer_t) (len0 : Nat) : Nat :=
  let free := self.capacity - self.used
  let len := if len0 > free then free else len0
  if 0 < len then
    let pos_free := (self.head + self.used) % self.capacity
    let len1 := ringbuffer_getCappedLen self pos_free len
    if len1 < len then 2 else 1
  else 0

/-- `ringbuffer_read(self, dst, len)`: remove `min(len, used)` bytes from the
front, advancing `head` modulo `capacity`.  `withDst = false` models a NULL
`dst` (flush); `withDst = true` models a real destination and the returned
list is the byte sequence `memcpy`-ed into it (front part from `head`, then —
on wrap — the part from offset `0`). -/
def ringbuffer_read (self : ringbuffer_t) (withDst : Bool) (len0 : Nat) :
    ringbuffer_t × List Nat × Nat :=
  let used := self.used
  let len := if len0 > used then used else len0
  if 0 < len then
    let pos_head := self.head
    let dst :=
      if withDst then
        let len1 := ringbuffer_getCappedLen self pos_head len
        (List.range len1).map (fun i => self.buffer (pos_head + i)) ++
          (List.range (len - len1)).map (fun i => self.buffer i)
      else []
    ({ self with head := (pos_head + len) % self.capacity, used := used - len },
      dst, len)
  else
    (self, [], len)

/-- `ringbuffer_flush(self, len) = ringbuffer_read(self, NULL, len)`. -/
def ringbuffer_flush (self : ringbuffer_t) (len : Nat) : ringbuffer_t × Nat :=
  let r := ringbuffer_read self false len
  (r.1, r.2.2)

/-- `ringbuffer_getReadPtr`: the pointer (modelled as the offset `head` into
the storage) and the length of the contiguous readable run starting there. -/
def ringbuffer_getReadPtr (self : ringbuffer_t) : Nat × Nat :=
  (self.head, ringbuffer_getCappedLen self self.head self.used)

/-- The logical FIFO content: the `used` bytes starting at `head`, wrapping
modulo `capacity`. -/
def ringbuffer_content (self : ringbuffer_t) : List Nat :=
  (List.range self.used).map (fun i => self.buffer ((self.head + i) % self.capacity))

/-! ### Basic facts about the ring buffer operations -/

theorem ite_gt_eq_min (a b : Nat) : (if a > b then b else a) = min a b := by
  split <;> omega

theorem ringbuffer_getCappedLen_of_lt (self : ringbuffer_t) (pos len : Nat)
    (h : pos < self.capacity) :
    ringbuffer_getCappedLen self pos len = min len (self.capacity - pos) := by
  unfold ringbuffer_getCappedLen
  rw [if_neg (by omega)]
  dsimp only
  split <;> omega

theorem ringbuffer_getCappedLen_le (self : ringbuffer_t) (pos len : Nat) :
    ringbuffer_getCappedLen self pos len ≤ len := by
  unfold ringbuffer_getCappedLen
  split
  · omega
  · dsimp only; split <;> omega

theorem ringbuffer_write_ret (self : ringbuffer_t) (src : List Nat) (len0 : Nat) :
    (ringbuffer_write self src len0).2 = min len0 (self.capacity - self.used) := by
  simp only [ringbuffer_write, ite_gt_eq_min]
  split <;> rfl

theorem ringbuffer_write_used (self : ringbuffer_t) (src : List Nat) (len0 : Nat) :
    (ringbuffer_write self src len0).1.used
      = self.used + (ringbuffer_write self src len0).2 := by
  simp only [ringbuffer_write, ite_gt_eq_min]
  split <;> dsimp only <;> omega

theorem ringbuffer_write_head (self : ringbuffer_t) (src : List Nat) (len0 : Nat) :
    (ringbuffer_write self src len0).1.head = self.head := by
  simp only [ringbuffer_write, ite_gt_eq_min]
  split <;> rfl

theorem ringbuffer_write_capacity (self : ringbuffer_t) (src : List Nat) (len0 : Nat) :
    (ringbuffer_write self src len0).1.capacity = self.capacity := by
  simp only [ringbuffer_write, ite_gt_eq_min]
  split <;> rfl

theorem ringbuffer_write_ret_zero (self : ringbuffer_t) (src : List Nat) (len0 : Nat)
    (h : (ringbuffer_write self src len0).2 = 0) :
    (ringbuffer_write self src len0).1 = self := by
  rw [ringbuffer_write_ret] at h
  simp only [ringbuffer_write, ite_gt_eq_min]
  rw [if_neg (by omega)]

theorem ringbuffer_write_Inv (self : ringbuffer_t) (src : List Nat) (len0 : Nat)
    (hInv : ringbuffer_Inv self) :
    ringbuffer_Inv (ringbuffer_write self src len0).1 := by
  obtain ⟨h1, h2⟩ := hInv
  constructor
  · rw [ringbuffer_write_used, ringbuffer_write_capacity, ringbuffer_write_ret]
    omega
  · rw [ringbuffer_write_capacity, ringbuffer_write_head]
    exact h2

theorem ringbuffer_read_ret (self : ringbuffer_t) (b : Bool) (len0 : Nat) :
    (ringbuffer_read self b len0).2.2 = min len0 self.used := by
  simp only [ringbuffer_read, ite_gt_eq_min]
  split <;> rfl

theorem ringbuffer_read_used (self : ringbuffer_t) (b : Bool) (len0 : Nat) :
    (ringbuffer_read self b len0).1.used
      = self.used - (ringbuffer_read self b len0).2.2 := by
  simp only [ringbuffer_read, ite_gt_eq_min]
  split <;> dsimp only <;> omega

theorem ringbuffer_read_head (self : ringbuffer_t) (b : Bool) (len0 : Nat)
    (h : 0 < min len0 self.used) :
    (ringbuffer_read self b len0).1.head
      = (self.head + min len0 self.used) % self.capacity := by
  simp only [ringbuffer_read, ite_gt_eq_min]
  rw [if_pos h]

theorem ringbuffer_read_of_ret_zero (self : ringbuffer_t) (b : Bool) (len0 : Nat)
    (h : min len0 self.used = 0) :
    ringbuffer_read self b len0 = (self, [], 0) := by
  simp only [ringbuffer_read, ite_gt_eq_min]
  rw [if_neg (by omega), h]

theorem ringbuffer_read_capacity (self : ringbuffer_t) (b : Bool) (len0 : Nat) :
    (ringbuffer_read self b len0).1.capacity = self.capacity := by
  simp only [ringbuffer_read, ite_gt_eq_min]
  split <;> rfl

theorem ringbuffer_read_buffer (self : ringbuffer_t) (b : Bool) (len0 : Nat) :
    (ringbuffer_read self b len0).1.buffer = self.buffer := by
  simp only [ringbuffer_read, ite_gt_eq_min]
  split <;> rfl

theorem ringbuffer_read_state_eq (self : ringbuffer_t) (b b' : Bool) (len0 : Nat) :
    (ringbuffer_read self b len0).1 = (ringbuffer_read self b' len0).1 := by
  simp only [ringbuffer_read, ite_gt_eq_min]
  by_cases h : 0 < min len0 self.used
  · rw [if_pos h, if_pos h]
  · rw [if_neg h, if_neg h]

theorem ringbuffer_read_Inv (self : ringbuffer_t) (b : Bool) (len0 : Nat)
    (hInv : ringbuffer_Inv self) :
    ringbuffer_Inv (ringbuffer_read self b len0).1 := by
  obtain ⟨h1, h2⟩ := hInv
  constructor
  · rw [ringbuffer_read_used, ringbuffer_read_capacity]
    omega
  · rw [ringbuffer_read_capacity]
    by_cases h : 0 < min len0 self.used
    · rw [ringbuffer_read_head _ _ _ h]
      right
      exact Nat.mod_lt _ (by omega)
    · rw [ringbuffer_read_of_ret_zero _ _ _ (by omega)]
      exact h2

theorem ringbuffer_flush_def (self : ringbuffer_t) (len0 : Nat) :
    ringbuffer_flush self len0
      = ((ringbuffer_read self true len0).1, min len0 self.used) := by
  unfold ringbuffer_flush
  dsimp only
  rw [ringbuffer_read_state_eq self false true, ringbuffer_read_ret]

/-! ### Byte-level characterization of write and read -/

theorem getD_drop (l : List Nat) (n m : Nat) :
    (l.drop n).getD m 0 = l.getD (n + m) 0 := by
  simp [List.getD_eq_getElem?_getD, List.getElem?_drop]

theorem memcpy_wrap_get (buffer : Nat → Nat) (src : List Nat) (cap p c j : Nat)
    (hp : p < cap) (hc : c ≤ cap) (hj : j < c) :
    (if min c (cap - p) < c
      then memcpyIn (memcpyIn buffer p src (min c (cap - p))) 0
          (src.drop (min c (cap - p))) (c - min c (cap - p))
      else memcpyIn buffer p src (min c (cap - p))) ((p + j) % cap)
      = src.getD j 0 := by
  by_cases hw : min c (cap - p) < c
  · rw [if_pos hw]
    simp only [memcpyIn]
    by_cases hj1 : j < cap - p
    · rw [Nat.mod_eq_of_lt (show p + j < cap by omega)]
      rw [if_neg (by omega), if_pos (by omega)]
      congr 1
      omega
    · have hidx : (p + j) % cap = j - (cap - p) := by
        rw [show p + j = cap + (j - (cap - p)) by omega, Nat.add_mod_left]
        exact Nat.mod_eq_of_lt (by omega)
      rw [hidx, if_pos (by omega), Nat.sub_zero, getD_drop]
      congr 1
      omega
  · rw [if_neg hw]
    simp only [memcpyIn]
    rw [Nat.mod_eq_of_lt (show p + j < cap by omega)]
    rw [if_pos (by omega)]
    congr 1
    omega

theorem memcpy_wrap_get_out (buffer : Nat → Nat) (src : List Nat) (cap p c i : Nat)
    (hp : p < cap) (hi : i < cap)
    (h : ∀ j, j < c → i ≠ (p + j) % cap) :
    (if min c (cap - p) < c
      then memcpyIn (memcpyIn buffer p src (min c (cap - p))) 0
          (src.drop (min c (cap - p))) (c - min c (cap - p))
      else memcpyIn buffer p src (min c (cap - p))) i
      = buffer i := by
  have hB : ¬(p ≤ i ∧ i < p + min c (cap - p)) := by
    rintro ⟨h1, h2⟩
    exact h (i - p) (by omega)
      (by rw [show p + (i - p) = i by omega, Nat.mod_eq_of_lt hi])
  by_cases hw : min c (cap - p) < c
  · rw [if_pos hw]
    simp only [memcpyIn]
    rw [if_neg ?hA, if_neg hB]
    case hA =>
      rintro ⟨_, h2⟩
      exact h (cap - p + i) (by omega)
        (by rw [show p + (cap - p + i) = cap + i by omega, Nat.add_mod_left,
                Nat.mod_eq_of_lt hi])
  · rw [if_neg hw]
    simp only [memcpyIn]
    rw [if_neg hB]

/-- The bytes written by `ringbuffer_write`: for every `j` below the accepted
count, the storage cell at offset `(pos_free + j) % capacity` now holds
`src[j]`. -/
theorem ringbuffer_write_buffer_in (self : ringbuffer_t) (src : List Nat)
    (len0 : Nat) (hInv : ringbuffer_Inv self) (j : Nat)
    (hj : j < min len0 (self.capacity - self.used)) :
    (ringbuffer_write self src len0).1.buffer
      (((self.head + self.used) % self.capacity + j) % self.capacity)
      = src.getD j 0 := by
  obtain ⟨hu, hh⟩ := hInv
  have hc0 : 0 < min len0 (self.capacity - self.used) := by omega
  have hcap : 0 < self.capacity := by omega
  have hpc : (self.head + self.used) % self.capacity < self.capacity :=
    Nat.mod_lt _ hcap
  simp only [ringbuffer_write, ite_gt_eq_min]
  rw [if_pos hc0]
  dsimp only
  rw [ringbuffer_getCappedLen_of_lt _ _ _ hpc]
  exact memcpy_wrap_get self.buffer src self.capacity _ _ j hpc (by omega) hj

/-- `ringbuffer_write` leaves every storage cell outside the written region
untouched. -/
theorem ringbuffer_write_buffer_out (self : ringbuffer_t) (src : List Nat)
    (len0 : Nat) (hInv : ringbuffer_Inv self) (i : Nat) (hi : i < self.capacity)
    (h : ∀ j, j < min len0 (self.capacity - self.used) →
      i ≠ ((self.head + self.used) % self.capacity + j) % self.capacity) :
    (ringbuffer_write self src len0).1.buffer i = self.buffer i := by
  by_cases hc0 : 0 < min len0 (self.capacity - self.used)
  · have hcap : 0 < self.capacity := by omega
    have hpc : (self.head + self.used) % self.capacity < self.capacity :=
      Nat.mod_lt _ hcap
    simp only [ringbuffer_write, ite_gt_eq_min]
    rw [if_pos hc0]
    dsimp only
    rw [ringbuffer_getCappedLen_of_lt _ _ _ hpc]
    exact memcpy_wrap_get_out self.buffer src self.capacity _ _ i hpc hi h
  · rw [ringbuffer_write_ret_zero _ _ _ (by rw [ringbuffer_write_ret]; omega)]

theorem ringbuffer_write_copies_le (self : ringbuffer_t) (len0 : Nat) :
    ringbuffer_write_copies self len0 ≤ 2 := by
  simp only [ringbuffer_write_copies, ite_gt_eq_min]
  split
  · split <;> omega
  · omega

theorem ringbuffer_write_copies_nowrap (self : ringbuffer_t) (len0 : Nat)
    (h : (self.head + self.used) % self.capacity
          + min len0 (self.capacity - self.used) ≤ self.capacity) :
    ringbuffer_write_copies self len0 ≤ 1 := by
  by_cases hc0 : 0 < min len0 (self.capacity - self.used)
  · have hcap : 0 < self.capacity := by omega
    have hpc : (self.head + self.used) % self.capacity < self.capacity :=
      Nat.mod_lt _ hcap
    simp only [ringbuffer_write_copies, ite_gt_eq_min]
    rw [if_pos hc0, ringbuffer_getCappedLen_of_lt _ _ _ hpc]
    rw [if_neg (by omega)]
  · simp only [ringbuffer_write_copies, ite_gt_eq_min]
    rw [if_neg hc0]
    omega

theorem ringbuffer_write_copies_wrap (self : ringbuffer_t) (len0 : Nat)
    (h : ringbuffer_write_copies self len0 = 2) :
    self.capacity
      < (self.head + self.used) % self.capacity
          + min len0 (self.capacity - self.used) := by
  by_cases hc0 : 0 < min len0 (self.capacity - self.used)
  · have hcap : 0 < self.capacity := by omega
    have hpc : (self.head + self.used) % self.capacity < self.capacity :=
      Nat.mod_lt _ hcap
    simp only [ringbuffer_write_copies, ite_gt_eq_min] at h
    rw [if_pos hc0, ringbuffer_getCappedLen_of_lt _ _ _ hpc] at h
    by_contra hno
    rw [if_neg (by omega)] at h
    omega
  · simp only [ringbuffer_write_copies, ite_gt_eq_min] at h
    rw [if_neg hc0] at h
    omega

theorem range_map_append (f g : Nat → Nat) (a b : Nat) :
    (List.range a).map f ++ (List.range b).map g
      = (List.range (a + b)).map (fun i => if i < a then f i else g (i - a)) := by
  refine List.ext_getElem (by simp) ?_
  intro i h1 h2
  simp only [List.length_append, List.length_map, List.length_range] at h1
  rw [List.getElem_map, List.getElem_range]
  by_cases hi : i < a
  · rw [List.getElem_append_left
      (by simp only [List.length_map, List.length_range]; omega)]
    rw [List.getElem_map, List.getElem_range, if_pos hi]
  · rw [List.getElem_append_right
      (by simp only [List.length_map, List.length_range]; omega)]
    simp only [List.length_map, List.length_range]
    rw [List.getElem_map, List.getElem_range, if_neg hi]

/-- The bytes `ringbuffer_read` copies into a non-NULL destination are exactly
the first `min len used` bytes of the logical FIFO content. -/
theorem ringbuffer_read_dst (self : ringbuffer_t) (len0 : Nat)
    (hInv : ringbuffer_Inv self) :
    (ringbuffer_read self true len0).2.1
      = (ringbuffer_content self).take (min len0 self.used) := by
  obtain ⟨hu, hh⟩ := hInv
  by_cases h0 : 0 < min len0 self.used
  · have hcap : 0 < self.capacity := by omega
    have hhc : self.head < self.capacity := by omega
    have hRHS : (ringbuffer_content self).take (min len0 self.used)
        = (List.range (min len0 self.used)).map
            (fun i => self.buffer ((self.head + i) % self.capacity)) := by
      unfold ringbuffer_content
      rw [← List.map_take, List.take_range]
      rw [show min (min len0 self.used) self.used = min len0 self.used by omega]
    rw [hRHS]
    simp only [ringbuffer_read, ite_gt_eq_min]
    rw [if_pos h0]
    dsimp only
    rw [if_pos trivial]
    rw [ringbuffer_getCappedLen_of_lt _ _ _ hhc]
    rw [range_map_append]
    rw [show min (min len0 self.used) (self.capacity - self.head)
          + (min len0 self.used
              - min (min len0 self.used) (self.capacity - self.head))
          = min len0 self.used by omega]
    refine List.map_congr_left ?_
    intro i hi
    rw [List.mem_range] at hi
    by_cases hi1 : i < min (min len0 self.used) (self.capacity - self.head)
    · rw [if_pos hi1, Nat.mod_eq_of_lt (by omega)]
    · rw [if_neg hi1]
      rw [show (self.head + i) % self.capacity
            = i - min (min len0 self.used) (self.capacity - self.head) from ?_]
      rw [show self.head + i
            = self.capacity + (i - (self.capacity - self.head)) by omega,
          Nat.add_mod_left]
      rw [show i - min (min len0 self.used) (self.capacity - self.head)
            = i - (self.capacity - self.head) by omega]
      exact Nat.mod_eq_of_lt (by omega)
  · rw [ringbuffer_read_of_ret_zero _ _ _ (by omega)]
    rw [show min len0 self.used = 0 by omega]
    simp

/-! ### Sequences of ring buffer calls (claim C1) -/

/-- One call in a sequence of `ringbuffer_write` / `ringbuffer_read` /
`ringbuffer_flush` invocations. -/
inductive rb_op where
  | write (src : List Nat) (len : Nat)
  | read (len : Nat)
  | flush (len : Nat)

/-- Run a sequence of calls against the buffer, accumulating the total count
returned by the writes and the total count returned by the reads/flushes. -/
def rb_run (rb : ringbuffer_t) : List rb_op → ringbuffer_t × Nat × Nat
  | [] => (rb, 0, 0)
  | .write src len :: rest =>
      let s := ringbuffer_write rb src len
      let r := rb_run s.1 rest
      (r.1, r.2.1 + s.2, r.2.2)
  | .read len :: rest =>
      let s := ringbuffer_read rb true len
      let r := rb_run s.1 rest
      (r.1, r.2.1, r.2.2 + s.2.2)
  | .flush len :: rest =>
      let s := ringbuffer_flush rb len
      let r := rb_run s.1 rest
      (r.1, r.2.1, r.2.2 + s.2)

theorem rb_run_conserve (ops : List rb_op) : ∀ rb : ringbuffer_t,
    (rb_run rb ops).1.used + (rb_run rb ops).2.2
        = rb.used + (rb_run rb ops).2.1 ∧
    (rb_run rb ops).2.2 ≤ rb.used + (rb_run rb ops).2.1 := by
  induction ops with
  | nil => intro rb; simp [rb_run]
  | cons op rest ih =>
    intro rb
    cases op with
    | write src len =>
      have h1 := ringbuffer_write_used rb src len
      have h2 := ih (ringbuffer_write rb src len).1
      simp only [rb_run]
      omega
    | read len =>
      have h1 := ringbuffer_read_used rb true len
      have h1b := ringbuffer_read_ret rb true len
      have h2 := ih (ringbuffer_read rb true len).1
      simp only [rb_run]
      omega
    | flush len =>
      have e1 : (ringbuffer_flush rb len).1 = (ringbuffer_read rb true len).1 := by
        rw [ringbuffer_flush_def]
      have e2 : (ringbuffer_flush rb len).2 = min len rb.used := by
        rw [ringbuffer_flush_def]
      have h1 := ringbuffer_read_used rb true len
      have h1b := ringbuffer_read_ret rb true len
      have h2 := ih (ringbuffer_flush rb len).1
      rw [e1] at h2
      simp only [rb_run]
      rw [e1, e2]
      omega

/-- C1 — Byte conservation: running any sequence of `ringbuffer_write`,
`ringbuffer_read` and `ringbuffer_flush` calls on a freshly initialized
buffer, the occupancy `used` always equals the sum of the counts returned by
the writes minus the sum of the counts returned by the reads/flushes, and the
latter never exceeds the former.  The sequence `ops` is universally
quantified, so the equation holds at every point (apply the theorem to each
prefix). -/
theorem ringbuffer_conservation (storage : Nat → Nat) (capacity : Nat)
    (ops : List rb_op) :
    (rb_run (ringbuffer_init storage capacity) ops).2.2
        ≤ (rb_run (ringbuffer_init storage capacity) ops).2.1 ∧
    (rb_run (ringbuffer_init storage capacity) ops).1.used
        = (rb_run (ringbuffer_init storage capacity) ops).2.1
            - (rb_run (ringbuffer_init storage capacity) ops).2.2 := by
  have h := rb_run_conserve ops (ringbuffer_init storage capacity)
  have h0 : (ringbuffer_init storage capacity).used = 0 := rfl
  omega

/-- C2 — `ringbuffer_write` functional correctness: on a state satisfying
the invariant, with a source providing at least `len` bytes, the call accepts
exactly `min len free` bytes, appends them at offset
`(head + used) % capacity` (wrapping modulo the capacity), leaves all other
storage cells and `head` unchanged, increments `used` by the accepted count,
returns that count, and performs at most two memory copies — two only when
the destination range wraps past the end of the storage. -/
theorem ringbuffer_write_spec (rb : ringbuffer_t) (src : List Nat) (len : Nat)
    (hInv : ringbuffer_Inv rb) (hsrc : len ≤ src.length) :
    (ringbuffer_write rb src len).2 = min len (rb.capacity - rb.used) ∧
    (ringbuffer_write rb src len).1.used
        = rb.used + min len (rb.capacity - rb.used) ∧
    (ringbuffer_write rb src len).1.head = rb.head ∧
    (ringbuffer_write rb src len).1.capacity = rb.capacity ∧
    (∀ j, j < min len (rb.capacity - rb.used) →
      (ringbuffer_write rb src len).1.buffer
          (((rb.head + rb.used) % rb.capacity + j) % rb.capacity)
        = src.getD j 0) ∧
    (∀ i, i < rb.capacity →
      (∀ j, j < min len (rb.capacity - rb.used) →
        i ≠ ((rb.head + rb.used) % rb.capacity + j) % rb.capacity) →
      (ringbuffer_write rb src len).1.buffer i = rb.buffer i) ∧
    ringbuffer_write_copies rb len ≤ 2 ∧
    ((rb.head + rb.used) % rb.capacity + min len (rb.capacity - rb.used)
        ≤ rb.capacity → ringbuffer_write_copies rb len ≤ 1) ∧
    (ringbuffer_write_copies rb len = 2 →
      rb.capacity
        < (rb.head + rb.used) % rb.capacity
            + min len (rb.capacity - rb.used)) := by
  refine ⟨ringbuffer_write_ret rb src len, ?_, ringbuffer_write_head rb src len,
    ringbuffer_write_capacity rb src len,
    fun j hj => ringbuffer_write_buffer_in rb src len hInv j hj,
    fun i hi h => ringbuffer_write_buffer_out rb src len hInv i hi h,
    ringbuffer_write_copies_le rb len,
    fun h => ringbuffer_write_copies_nowrap rb len h,
    fun h => ringbuffer_write_copies_wrap rb len h⟩
  rw [ringbuffer_write_used, ringbuffer_write_ret]

/-- Concrete input for the C2 witness: capacity 4, head 3, used 2. -/
def rbW2 : ringbuffer_t :=
  { buffer := fun _ => 0, capacity := 4, head := 3, used := 2 }

/-- Witness for C2 at a concrete buffer and source. -/
theorem ringbuffer_write_spec_witness :
    ringbuffer_Inv rbW2 ∧ 3 ≤ ([7, 8, 9] : List Nat).length ∧
    ((ringbuffer_write rbW2 [7, 8, 9] 3).2
        = min 3 (rbW2.capacity - rbW2.used) ∧
    (ringbuffer_write rbW2 [7, 8, 9] 3).1.used
        = rbW2.used + min 3 (rbW2.capacity - rbW2.used) ∧
    (ringbuffer_write rbW2 [7, 8, 9] 3).1.head = rbW2.head ∧
    (ringbuffer_write rbW2 [7, 8, 9] 3).1.capacity = rbW2.capacity ∧
    (∀ j, j < min 3 (rbW2.capacity - rbW2.used) →
      (ringbuffer_write rbW2 [7, 8, 9] 3).1.buffer
          (((rbW2.head + rbW2.used) % rbW2.capacity + j) % rbW2.capacity)
        = ([7, 8, 9] : List Nat).getD j 0) ∧
    (∀ i, i < rbW2.capacity →
      (∀ j, j < min 3 (rbW2.capacity - rbW2.used) →
        i ≠ ((rbW2.head + rbW2.used) % rbW2.capacity + j) % rbW2.capacity) →
      (ringbuffer_write rbW2 [7, 8, 9] 3).1.buffer i = rbW2.buffer i) ∧
    ringbuffer_write_copies rbW2 3 ≤ 2 ∧
    ((rbW2.head + rbW2.used) % rbW2.capacity + min 3 (rbW2.capacity - rbW2.used)
        ≤ rbW2.capacity → ringbuffer_write_copies rbW2 3 ≤ 1) ∧
    (ringbuffer_write_copies rbW2 3 = 2 →
      rbW2.capacity
        < (rbW2.head + rbW2.used) % rbW2.capacity
            + min 3 (rbW2.capacity - rbW2.used))) :=
  ⟨by decide, by decide, ringbuffer_write_spec rbW2 [7, 8, 9] 3 (by decide) (by decide)⟩

/-- C3 — `ringbuffer_read` / `ringbuffer_flush` functional correctness: on a
state satisfying the invariant, a read of `len` removes exactly
`min len used` bytes from the front — `head` advances by that count modulo
`capacity`, `used` decreases by it, the storage itself is untouched, the
bytes delivered to a non-NULL destination are exactly the first
`min len used` bytes of the logical content (split across the wrap boundary),
and that count is returned.  `ringbuffer_flush` performs the same state
change with no destination. -/
theorem ringbuffer_read_flush_spec (rb : ringbuffer_t) (len : Nat)
    (hInv : ringbuffer_Inv rb) :
    (ringbuffer_read rb true len).2.2 = min len rb.used ∧
    (ringbuffer_read rb true len).1.used = rb.used - min len rb.used ∧
    (0 < min len rb.used →
      (ringbuffer_read rb true len).1.head
        = (rb.head + min len rb.used) % rb.capacity) ∧
    (min len rb.used = 0 → ringbuffer_read rb true len = (rb, [], 0)) ∧
    (ringbuffer_read rb true len).1.capacity = rb.capacity ∧
    (ringbuffer_read rb true len).1.buffer = rb.buffer ∧
    (ringbuffer_read rb true len).2.1
        = (ringbuffer_content rb).take (min len rb.used) ∧
    ringbuffer_flush rb len = ((ringbuffer_read rb true len).1, min len rb.used) := by
  refine ⟨ringbuffer_read_ret rb true len, ?_,
    fun h => ringbuffer_read_head rb true len h,
    fun h => ringbuffer_read_of_ret_zero rb true len h,
    ringbuffer_read_capacity rb true len,
    ringbuffer_read_buffer rb true len,
    ringbuffer_read_dst rb len hInv,
    ringbuffer_flush_def rb len⟩
  rw [ringbuffer_read_used, ringbuffer_read_ret]

/-- Concrete input for the C3 witness: capacity 4, head 2, used 3, so a read
of 3 bytes wraps around the end of the storage. -/
def rbW3 : ringbuffer_t :=
  { buffer := fun i => 10 + i, capacity := 4, head := 2, used := 3 }

/-- Witness for C3 at a concrete buffer. -/
theorem ringbuffer_read_flush_spec_witness :
    ringbuffer_Inv rbW3 ∧
    ((ringbuffer_read rbW3 true 3).2.2 = min 3 rbW3.used ∧
    (ringbuffer_read rbW3 true 3).1.used = rbW3.used - min 3 rbW3.used ∧
    (0 < min 3 rbW3.used →
      (ringbuffer_read rbW3 true 3).1.head
        = (rbW3.head + min 3 rbW3.used) % rbW3.capacity) ∧
    (min 3 rbW3.used = 0 → ringbuffer_read rbW3 true 3 = (rbW3, [], 0)) ∧
    (ringbuffer_read rbW3 true 3).1.capacity = rbW3.capacity ∧
    (ringbuffer_read rbW3 true 3).1.buffer = rbW3.buffer ∧
    (ringbuffer_read rbW3 true 3).2.1
        = (ringbuffer_content rbW3).take (min 3 rbW3.used) ∧
    ringbuffer_flush rbW3 3 = ((ringbuffer_read rbW3 true 3).1, min 3 rbW3.used)) :=
  ⟨by decide, ringbuffer_read_flush_spec rbW3 3 (by decide)⟩

/-- C4 — `ringbuffer_getReadPtr` returns the offset `head` as the zero-copy
pointer together with length `min used (capacity - head)`: the longest
contiguous occupied run starting at `head` that does not wrap.  The length is
`0` when the buffer is empty, the run stays within the storage, and each of
its bytes is the corresponding byte of the logical FIFO content. -/
theorem ringbuffer_getReadPtr_spec (rb : ringbuffer_t)
    (hInv : ringbuffer_Inv rb) :
    (ringbuffer_getReadPtr rb).1 = rb.head ∧
    (ringbuffer_getReadPtr rb).2 = min rb.used (rb.capacity - rb.head) ∧
    (rb.used = 0 → (ringbuffer_getReadPtr rb).2 = 0) ∧
    (0 < rb.capacity → rb.head + (ringbuffer_getReadPtr rb).2 ≤ rb.capacity) ∧
    (∀ j, j < (ringbuffer_getReadPtr rb).2 →
      rb.buffer (rb.head + j) = (ringbuffer_content rb).getD j 0) := by
  obtain ⟨hu, hh⟩ := hInv
  have h2 : (ringbuffer_getReadPtr rb).2 = min rb.used (rb.capacity - rb.head) := by
    rcases hh with h0 | hlt
    · unfold ringbuffer_getReadPtr ringbuffer_getCappedLen
      dsimp only
      rw [if_pos (by omega)]
      omega
    · unfold ringbuffer_getReadPtr
      dsimp only
      rw [ringbuffer_getCappedLen_of_lt _ _ _ hlt]
  refine ⟨rfl, h2, ?_, ?_, ?_⟩
  · intro h
    rw [h2, h]
    omega
  · intro hcap
    rw [h2]
    omega
  · intro j hj
    rw [h2] at hj
    have hcap : 0 < rb.capacity := by omega
    have hgetD : (ringbuffer_content rb).getD j 0
        = rb.buffer ((rb.head + j) % rb.capacity) := by
      unfold ringbuffer_content
      rw [List.getD_eq_getElem _ 0
        (by simp only [List.length_map, List.length_range]; omega)]
      rw [List.getElem_map, List.getElem_range]
    rw [hgetD, Nat.mod_eq_of_lt (by omega)]

/-- Concrete input for the C4 witness: capacity 5, head 3, used 4, so the
contiguous run (length 2) is shorter than the occupancy. -/
def rbW4 : ringbuffer_t :=
  { buffer := fun i => 100 + i, capacity := 5, head := 3, used := 4 }

/-- Witness for C4 at a concrete buffer. -/
theorem ringbuffer_getReadPtr_spec_witness :
    ringbuffer_Inv rbW4 ∧
    ((ringbuffer_getReadPtr rbW4).1 = rbW4.head ∧
    (ringbuffer_getReadPtr rbW4).2 = min rbW4.used (rbW4.capacity - rbW4.head) ∧
    (rbW4.used = 0 → (ringbuffer_getReadPtr rbW4).2 = 0) ∧
    (0 < rbW4.capacity →
      rbW4.head + (ringbuffer_getReadPtr rbW4).2 ≤ rbW4.capacity) ∧
    (∀ j, j < (ringbuffer_getReadPtr rbW4).2 →
      rbW4.buffer (rbW4.head + j) = (ringbuffer_content rbW4).getD j 0)) :=
  ⟨by decide, ringbuffer_getReadPtr_spec rbW4 (by decide)⟩

/-- C5 — round-trip FIFO order: writing a byte sequence `S` into an empty
buffer of capacity at least `|S|` (at any head offset) and then reading `|S|`
bytes returns exactly `S`, in order, whether or not the stored region wraps
around the end of the storage; the buffer ends empty. -/
theorem ringbuffer_roundtrip_fifo (rb : ringbuffer_t) (S : List Nat)
    (hInv : ringbuffer_Inv rb) (hEmpty : rb.used = 0)
    (hCap : S.length ≤ rb.capacity) :
    (ringbuffer_read (ringbuffer_write rb S S.length).1 true S.length).2.1 = S ∧
    (ringbuffer_read (ringbuffer_write rb S S.length).1 true S.length).1.used
      = 0 := by
  have hret : (ringbuffer_write rb S S.length).2 = S.length := by
    rw [ringbuffer_write_ret]
    omega
  have hused1 : (ringbuffer_write rb S S.length).1.used = S.length := by
    rw [ringbuffer_write_used, hret, hEmpty]
    omega
  have hInv1 := ringbuffer_write_Inv rb S S.length hInv
  have hdst := ringbuffer_read_dst (ringbuffer_write rb S S.length).1 S.length hInv1
  rw [hused1, Nat.min_self] at hdst
  have hcont :
      (ringbuffer_content (ringbuffer_write rb S S.length).1).take S.length
        = S := by
    unfold ringbuffer_content
    simp only [ringbuffer_write_head, ringbuffer_write_capacity, hused1]
    rw [List.take_of_length_le
      (by simp only [List.length_map, List.length_range]; omega)]
    refine List.ext_getElem (by simp) ?_
    intro i h1 h2
    simp only [List.length_map, List.length_range] at h1
    rw [List.getElem_map, List.getElem_range]
    have hcap : 0 < rb.capacity := by omega
    have hlt : rb.head < rb.capacity := by
      obtain ⟨_, hh⟩ := hInv
      omega
    have hb := ringbuffer_write_buffer_in rb S S.length hInv i (by omega)
    rw [hEmpty, Nat.add_zero, Nat.mod_eq_of_lt hlt] at hb
    rw [hb]
    exact List.getD_eq_getElem S 0 h2
  exact ⟨by rw [hdst, hcont], by
    rw [ringbuffer_read_used, ringbuffer_read_ret, hused1]
    omega⟩

/-- Concrete input for the C5 witness: capacity 4, head 2, empty; writing 3
bytes wraps around the end of the storage. -/
def rbW5 : ringbuffer_t :=
  { buffer := fun _ => 0, capacity := 4, head := 2, used := 0 }

/-- Witness for C5 at a concrete buffer and sequence (with wraparound). -/
theorem ringbuffer_roundtrip_fifo_witness :
    ringbuffer_Inv rbW5 ∧ rbW5.used = 0 ∧
      ([5, 6, 7] : List Nat).length ≤ rbW5.capacity ∧
    ((ringbuffer_read (ringbuffer_write rbW5 [5, 6, 7]
        ([5, 6, 7] : List Nat).length).1 true
        ([5, 6, 7] : List Nat).length).2.1 = [5, 6, 7] ∧
    (ringbuffer_read (ringbuffer_write rbW5 [5, 6, 7]
        ([5, 6, 7] : List Nat).length).1 true
        ([5, 6, 7] : List Nat).length).1.used = 0) :=
  ⟨by decide, by decide, by decide,
    ringbuffer_roundtrip_fifo rbW5 [5, 6, 7] (by decide) (by decide) (by decide)⟩

/-! ### The stream validator of `uart_tester.c` (claim C6) -/

/-- The validator part of `test_ctx_t` in `uart_tester.c`: the monotonic byte
counter, the dummy-load accumulator, the running sequence expectation and the
6-byte trailing diagnostic window.  The `uint8_t` fields hold values below
256. -/
structure stream_ctx where
  bytes_processed : Nat
  byte_processor : Nat
  expecting_byte : Nat
  data_window : List Nat
deriving DecidableEq, Repr

/-- `data_processor`: the dummy per-byte load — rotate the byte right by one
bit, complement it, OR it into the accumulator, all in `uint8_t`
arithmetic. -/
def data_processor (ctx : stream_ctx) (data_byte : Nat) : stream_ctx :=
  let x := data_byte % 256
  let x := Nat.lor (x >>> 1) ((x <<< 7) % 256)
  let x := Nat.xor x 255
  let x := Nat.lor x ctx.byte_processor
  { ctx with byte_processor := x }

/-- The mismatch diagnostic `do_process` emits via `Debug_LOG_ERROR`: the
byte counter at the time of the mismatch, the expected value and the byte
actually read. -/
structure mismatch_report where
  position : Nat
  expected : Nat
  got : Nat
deriving DecidableEq, Repr

/-- `do_process` from `uart_tester.c`: shift the trailing window left by one
and append the byte, compare it against `expecting_byte`; on mismatch emit
the diagnostic (the `Option` component) and resynchronize
`expecting_byte := data_byte + 1` (mod 256), on match advance
`expecting_byte` by one (mod 256); run the dummy load, count the byte, and
return `OS_ERROR_INVALID_STATE` on mismatch, `OS_SUCCESS` otherwise. -/
def do_process (ctx : stream_ctx) (data_byte : Nat) :
    stream_ctx × Option mismatch_report × OS_Error :=
  let w := ctx.data_window.drop 1 ++ [data_byte]
  let err : Bool := data_byte != ctx.expecting_byte
  let report := if err then
      some { position := ctx.bytes_processed, expected := ctx.expecting_byte,
             got := data_byte }
    else none
  let expecting :=
    if err then (data_byte + 1) % 256 else (ctx.expecting_byte + 1) % 256
  let ctx1 :=
    data_processor { ctx with data_window := w, expecting_byte := expecting }
      data_byte
  let ctx2 := { ctx1 with bytes_processed := ctx1.bytes_processed + 1 }
  (ctx2, report,
    if err then OS_Error.OS_ERROR_INVALID_STATE else OS_Error.OS_SUCCESS)

/-- The zero-initialized validator context (`static test_ctx_t ctx = {0}` in
`do_run_test`). -/
def initial_stream_ctx : stream_ctx :=
  { bytes_processed := 0, byte_processor := 0, expecting_byte := 0,
    data_window := [0, 0, 0, 0, 0, 0] }

/-- Feed a byte list through `do_process`, collecting the emitted mismatch
diagnostics in order. -/
def runValidator (ctx : stream_ctx) :
    List Nat → stream_ctx × List mismatch_report
  | [] => (ctx, [])
  | b :: rest =>
      let r := do_process ctx b
      let q := runValidator r.1 rest
      (q.1, r.2.1.toList ++ q.2)

/-- C6 — validator step and resynchronization: each `do_process` call shifts
the 6-byte window left and appends the byte, always increments the byte
counter, advances the expectation by one on match and resynchronizes it to
`b + 1` (mod 256) on mismatch, emitting a diagnostic and an error result
without halting.  Consequently on input `0,1,2,99,4,5` the byte `99` is
reported at position 3 with expected `3`, and the following byte `4` is
immediately reported as a second mismatch against the resynchronized
expectation `100`. -/
theorem do_process_spec : ∀ (ctx : stream_ctx) (b : Nat),
    (do_process ctx b).1.data_window = ctx.data_window.drop 1 ++ [b] ∧
    (do_process ctx b).1.bytes_processed = ctx.bytes_processed + 1 ∧
    (do_process ctx b).1.expecting_byte
      = (if b = ctx.expecting_byte then (ctx.expecting_byte + 1) % 256
         else (b + 1) % 256) ∧
    (do_process ctx b).2.1
      = (if b = ctx.expecting_byte then none
         else some { position := ctx.bytes_processed,
                     expected := ctx.expecting_byte, got := b }) ∧
    (do_process ctx b).2.2
      = (if b = ctx.expecting_byte then OS_Error.OS_SUCCESS
         else OS_Error.OS_ERROR_INVALID_STATE) ∧
    (runValidator initial_stream_ctx [0, 1, 2, 99, 4, 5]).2
      = [{ position := 3, expected := 3, got := 99 },
         { position := 4, expected := 100, got := 4 }] := by
  intro ctx b
  refine ⟨?_, ?_, ?_, ?_, ?_, by decide⟩ <;>
    by_cases hbe : b = ctx.expecting_byte <;>
    simp [do_process, data_processor, hbe]

/-! ### The processing stage (claim C7) -/

/-- The tester context of `uart_tester.c`: the internal FIFO and the
validator state (the dataport FIFO is modelled separately). -/
structure test_ctx where
  rb : ringbuffer_t
  stream : stream_ctx

/-- The tester context of the `src/unnamed/part_003` revision, which
additionally carries the processing watermark computed at startup. -/
structure test_ctx_wm where
  rb : ringbuffer_t
  watermark : Nat
  stream : stream_ctx

/-- The inner `for` loop shared by both revisions of `process_data`: run
`do_process` over the chunk, stopping at the first mismatch.  Returns the
final validator state, `cnt_processed` (bytes fully processed before a
failure), the number of `do_process` calls made, and whether the whole chunk
validated. -/
def processChunk (s : stream_ctx) : List Nat → stream_ctx × Nat × Nat × Bool
  | [] => (s, 0, 0, true)
  | b :: rest =>
      let r := do_process s b
      if r.2.2 = OS_Error.OS_SUCCESS then
        let q := processChunk r.1 rest
        (q.1, q.2.1 + 1, q.2.2.1 + 1, q.2.2.2)
      else (r.1, 0, 1, false)

/-- The quota computation at the top of `process_data` in
`src/unnamed/part_003`: baseline `boost = 16`; when the occupancy exceeds the
watermark and `used - watermark` is larger, use that instead. -/
def process_boost (used watermark : Nat) : Nat :=
  let boost := 16
  if used > watermark then
    let boost2 := used - watermark
    if boost2 > boost then boost2 else boost
  else boost

/-- The watermark configured by `do_run_test` of `src/unnamed/part_003`:
`capacity/2 + capacity/4`, i.e. 75% of the internal FIFO capacity. -/
def watermark_of (capacity : Nat) : Nat :=
  capacity / 2 + capacity / 4

/-- `INTERNAL_FIFO_SIZE` of `src/unnamed/part_003`. -/
def INTERNAL_FIFO_SIZE : Nat := 2048

/-- The `while (boost > 0)` loop of `process_data` in `src/unnamed/part_003`:
take the contiguous run from `ringbuffer_getReadPtr`, cap it to the remaining
quota, subtract it from the quota, validate it byte by byte, flush the fully
processed prefix, and return `OS_ERROR_GENERIC` if the chunk did not validate
completely.  One unit of fuel drives one iteration; the caller passes the
initial quota as fuel, which suffices because every iteration consumes at
least one unit of quota.  The final component counts the `do_process` calls
made during the pass. -/
def process_data_wm_loop :
    Nat → test_ctx_wm → Nat → Nat → test_ctx_wm × OS_Error × Nat
  | 0, ctx, _, acc => (ctx, OS_Error.OS_SUCCESS, acc)
  | fuel + 1, ctx, boost, acc =>
    if 0 < boost then
      let len0 := (ringbuffer_getReadPtr ctx.rb).2
      if 0 < len0 then
        let len := if len0 > boost then boost else len0
        let chunk :=
          (List.range len).map (fun i => ctx.rb.buffer (ctx.rb.head + i))
        let q := processChunk ctx.stream chunk
        let rb2 := if 0 < q.2.1 then (ringbuffer_flush ctx.rb q.2.1).1 else ctx.rb
        if q.2.2.2 then
          process_data_wm_loop fuel { ctx with rb := rb2, stream := q.1 }
            (boost - len) (acc + q.2.2.1)
        else
          ({ ctx with rb := rb2, stream := q.1 },
            OS_Error.OS_ERROR_GENERIC, acc + q.2.2.1)
      else (ctx, OS_Error.OS_SUCCESS, acc)
    else (ctx, OS_Error.OS_SUCCESS, acc)

/-- `process_data` of `src/unnamed/part_003`: compute the quota from the
occupancy and the watermark, then run the quota-bounded loop. -/
def process_data_wm (ctx : test_ctx_wm) : test_ctx_wm × OS_Error × Nat :=
  let boost := process_boost (ringbuffer_getUsed ctx.rb) ctx.watermark
  process_data_wm_loop boost ctx boost 0

/-- The `for (;;)` loop of `process_data` in `uart_tester.c`: like the
part_003 loop but with no quota — it validates and flushes whole contiguous
runs until the internal FIFO is empty or a validator error occurs.  One unit
of fuel drives one iteration; `process_data` passes `used + 1`, which
suffices because every iteration but the last removes at least one byte. -/
def process_data_loop : Nat → test_ctx → Nat → test_ctx × OS_Error × Nat
  | 0, ctx, acc => (ctx, OS_Error.OS_SUCCESS, acc)
  | fuel + 1, ctx, acc =>
    let len := (ringbuffer_getReadPtr ctx.rb).2
    if 0 < len then
      let chunk :=
        (List.range len).map (fun i => ctx.rb.buffer (ctx.rb.head + i))
      let q := processChunk ctx.stream chunk
      if q.2.2.2 then
        process_data_loop fuel
          { rb := (ringbuffer_flush ctx.rb len).1, stream := q.1 }
          (acc + q.2.2.1)
      else
        ({ ctx with stream := q.1 }, OS_Error.OS_ERROR_GENERIC, acc + q.2.2.1)
    else (ctx, OS_Error.OS_SUCCESS, acc)

/-- `process_data` of `uart_tester.c` (no quota). -/
def process_data (ctx : test_ctx) : test_ctx × OS_Error × Nat :=
  process_data_loop (ctx.rb.used + 1) ctx 0

theorem processChunk_calls_le (bytes : List Nat) : ∀ s : stream_ctx,
    (processChunk s bytes).2.2.1 ≤ bytes.length := by
  induction bytes with
  | nil => intro s; simp [processChunk]
  | cons b rest ih =>
    intro s
    simp only [processChunk, List.length_cons]
    split
    · have := ih (do_process s b).1
      dsimp only
      omega
    · dsimp only
      omega

theorem processChunk_calls_pos (s : stream_ctx) (bytes : List Nat)
    (h : bytes ≠ []) : 1 ≤ (processChunk s bytes).2.2.1 := by
  cases bytes with
  | nil => exact absurd rfl h
  | cons b rest =>
    simp only [processChunk]
    split <;> dsimp only <;> omega

theorem process_boost_ge (used watermark : Nat) :
    16 ≤ process_boost used watermark := by
  simp only [process_boost]
  split
  · split <;> omega
  · omega

theorem process_boost_boosted (used watermark : Nat) (h : watermark < used) :
    used - watermark ≤ process_boost used watermark := by
  simp only [process_boost]
  rw [if_pos h]
  split <;> omega

theorem process_boost_base (used watermark : Nat) (h : used ≤ watermark) :
    process_boost used watermark = 16 := by
  simp only [process_boost]
  rw [if_neg (by omega)]

theorem process_data_wm_loop_le (fuel : Nat) : ∀ (ctx : test_ctx_wm)
    (boost acc : Nat),
    (process_data_wm_loop fuel ctx boost acc).2.2 ≤ acc + boost := by
  induction fuel with
  | zero => intro ctx boost acc; simp [process_data_wm_loop]
  | succ fuel ih =>
    intro ctx boost acc
    simp only [process_data_wm_loop, ite_gt_eq_min]
    have hcalls := processChunk_calls_le
      ((List.range (min (ringbuffer_getReadPtr ctx.rb).2 boost)).map
        (fun i => ctx.rb.buffer (ctx.rb.head + i))) ctx.stream
    have hchlen : ((List.range (min (ringbuffer_getReadPtr ctx.rb).2 boost)).map
        (fun i => ctx.rb.buffer (ctx.rb.head + i))).length
        = min (ringbuffer_getReadPtr ctx.rb).2 boost := by
      simp
    split
    · split
      · split
        · refine le_trans (ih _ _ _) ?_
          omega
        · dsimp only
          omega
      · dsimp only
        omega
    · dsimp only
      omega

theorem process_data_wm_loop_ge (fuel : Nat) : ∀ (ctx : test_ctx_wm)
    (boost acc : Nat),
    acc ≤ (process_data_wm_loop fuel ctx boost acc).2.2 := by
  induction fuel with
  | zero => intro ctx boost acc; simp [process_data_wm_loop]
  | succ fuel ih =>
    intro ctx boost acc
    simp only [process_data_wm_loop, ite_gt_eq_min]
    split
    · split
      · split
        · refine le_trans ?_ (ih _ _ _)
          omega
        · dsimp only
          omega
      · dsimp only
        omega
    · dsimp only
      omega

theorem process_data_wm_progress (ctx : test_ctx_wm)
    (hInv : ringbuffer_Inv ctx.rb) (hne : 0 < ctx.rb.used) :
    1 ≤ (process_data_wm ctx).2.2 := by
  obtain ⟨hu, hh⟩ := hInv
  have hcap : 0 < ctx.rb.capacity := by omega
  have hlt : ctx.rb.head < ctx.rb.capacity := by omega
  have hlen0 : 0 < (ringbuffer_getReadPtr ctx.rb).2 := by
    unfold ringbuffer_getReadPtr
    dsimp only
    rw [ringbuffer_getCappedLen_of_lt _ _ _ hlt]
    omega
  have hb := process_boost_ge (ringbuffer_getUsed ctx.rb) ctx.watermark
  unfold process_data_wm
  dsimp only
  obtain ⟨f, hf⟩ :
      ∃ f, process_boost (ringbuffer_getUsed ctx.rb) ctx.watermark = f + 1 :=
    ⟨process_boost (ringbuffer_getUsed ctx.rb) ctx.watermark - 1, by omega⟩
  rw [hf]
  simp only [process_data_wm_loop, ite_gt_eq_min]
  rw [if_pos (by omega), if_pos hlen0]
  have hchNe : ((List.range (min (ringbuffer_getReadPtr ctx.rb).2 (f + 1))).map
      (fun i => ctx.rb.buffer (ctx.rb.head + i))) ≠ [] := by
    refine List.ne_nil_of_length_pos ?_
    simp only [List.length_map, List.length_range]
    omega
  have hcalls := processChunk_calls_pos ctx.stream _ hchNe
  split
  · exact le_trans (by omega) (process_data_wm_loop_ge f _ _ _)
  · dsimp only
    omega

/-- C7 (amended) — watermark-biased processing quota, as implemented by the
`src/unnamed/part_003` revision of `process_data`: the validator pass after a
drain is bounded by a quota that is 16 bytes whenever the occupancy is at or
below the watermark, and at least `occupancy - watermark` when the occupancy
exceeds the watermark; the watermark is `capacity/2 + capacity/4`, which is
exactly 75% of the 2048-byte internal FIFO.  Because the quota is never below
16, at least one byte is validated whenever the internal FIFO is non-empty,
so a zero quota can never cause a livelock.  (The `process_data` of the
current `uart_tester.c` applies no quota at all — see the counterexample.) -/
theorem process_data_wm_spec (ctx : test_ctx_wm)
    (hInv : ringbuffer_Inv ctx.rb)
    (hwm : ctx.watermark = watermark_of ctx.rb.capacity) :
    16 ≤ process_boost ctx.rb.used ctx.watermark ∧
    (ctx.watermark < ctx.rb.used →
      ctx.rb.used - ctx.watermark ≤ process_boost ctx.rb.used ctx.watermark) ∧
    (ctx.rb.used ≤ ctx.watermark →
      process_boost ctx.rb.used ctx.watermark = 16) ∧
    (process_data_wm ctx).2.2 ≤ process_boost ctx.rb.used ctx.watermark ∧
    (0 < ctx.rb.used → 1 ≤ (process_data_wm ctx).2.2) ∧
    4 * watermark_of INTERNAL_FIFO_SIZE = 3 * INTERNAL_FIFO_SIZE := by
  refine ⟨process_boost_ge _ _, fun h => process_boost_boosted _ _ h,
    fun h => process_boost_base _ _ h, ?_,
    fun h => process_data_wm_progress ctx hInv h, by decide⟩
  unfold process_data_wm
  dsimp only
  have hle := process_data_wm_loop_le
    (process_boost (ringbuffer_getUsed ctx.rb) ctx.watermark) ctx
    (process_boost (ringbuffer_getUsed ctx.rb) ctx.watermark) 0
  simp only [ringbuffer_getUsed] at hle ⊢
  omega

/-- Concrete input for the C7 witness: the part_003 configuration (capacity
2048, 75% watermark) holding five in-sequence bytes. -/
def rbW7 : ringbuffer_t :=
  { buffer := fun i => if i < 5 then i else 0, capacity := 2048,
    head := 0, used := 5 }

/-- The part_003 tester context for the C7 witness. -/
def ctxW7 : test_ctx_wm :=
  { rb := rbW7, watermark := watermark_of 2048, stream := initial_stream_ctx }

/-- Witness for the amended C7 at a concrete part_003 context. -/
theorem process_data_wm_spec_witness :
    ringbuffer_Inv ctxW7.rb ∧
    ctxW7.watermark = watermark_of ctxW7.rb.capacity ∧
    (16 ≤ process_boost ctxW7.rb.used ctxW7.watermark ∧
    (ctxW7.watermark < ctxW7.rb.used →
      ctxW7.rb.used - ctxW7.watermark
        ≤ process_boost ctxW7.rb.used ctxW7.watermark) ∧
    (ctxW7.rb.used ≤ ctxW7.watermark →
      process_boost ctxW7.rb.used ctxW7.watermark = 16) ∧
    (process_data_wm ctxW7).2.2
      ≤ process_boost ctxW7.rb.used ctxW7.watermark ∧
    (0 < ctxW7.rb.used → 1 ≤ (process_data_wm ctxW7).2.2) ∧
    4 * watermark_of INTERNAL_FIFO_SIZE = 3 * INTERNAL_FIFO_SIZE) :=
  ⟨by decide, by decide, process_data_wm_spec ctxW7 (by decide) (by decide)⟩

/-- Concrete input refuting C7 against the current `uart_tester.c`: 20
sequential bytes buffered in the 4096-byte internal FIFO, occupancy far
below any 75% watermark. -/
def cexC7_ctx : test_ctx :=
  { rb := { buffer := fun i => if i < 20 then i else 0, capacity := 4096,
            head := 0, used := 20 },
    stream := initial_stream_ctx }

/-- C7 counterexample: the `process_data` of the current `uart_tester.c` is
not bounded by a 16-byte baseline quota — with 20 buffered bytes and
occupancy below the 75% watermark it validates all 20 bytes in a single
pass. -/
theorem process_data_unbounded_cex :
    (process_data cexC7_ctx).2.2 = 20 ∧
    (process_data cexC7_ctx).2.1 = OS_Error.OS_SUCCESS ∧
    16 < (process_data cexC7_ctx).2.2 ∧
    cexC7_ctx.rb.used ≤ watermark_of cexC7_ctx.rb.capacity := by
  decide

/-! ### The ingestion loop `blocking_read` (claims C8, C9, C10) -/

/-- What the consumer observes of the producer-owned dataport FIFO in one
iteration of `blocking_read`: the overflow byte and the contiguous readable
run returned by `FifoDataport_getContiguous`. -/
structure fifo_obs where
  overflow : Bool
  chunk : List Nat

/-- `blocking_read` of `uart_tester.c`, driven by one dataport observation
per loop iteration.  Per iteration: latch the overflow byte into the local
`is_overflow` flag; if the contiguous run is non-empty, `ringbuffer_write`
it into the internal FIFO and — unless nothing was copied because the
internal FIFO is full — release exactly the copied count from the dataport
FIFO (`FifoDataport_remove`), returning `OS_SUCCESS`; otherwise fail with
`OS_ERROR_OVERFLOW_DETECTED` if an overflow was latched; otherwise return
`OS_SUCCESS` if the internal FIFO already holds data; otherwise
`uart_event_wait` and repeat with the next observation.  The result carries
the final internal FIFO state and the count released from the dataport FIFO;
`none` means the observation trace ended while the loop was still blocked. -/
def blocking_read (rb : ringbuffer_t) (is_overflow : Bool) :
    List fifo_obs → Option (OS_Error × ringbuffer_t × Nat)
  | [] => none
  | obs :: rest =>
      let is_overflow2 := is_overflow || obs.overflow
      let avail := obs.chunk.length
      if 0 < avail then
        let w := ringbuffer_write rb obs.chunk avail
        if w.2 = 0 then some (OS_Error.OS_SUCCESS, w.1, 0)
        else some (OS_Error.OS_SUCCESS, w.1, w.2)
      else if is_overflow2 = true then
        some (OS_Error.OS_ERROR_OVERFLOW_DETECTED, rb, 0)
      else if ringbuffer_isEmpty rb = false then
        some (OS_Error.OS_SUCCESS, rb, 0)
      else blocking_read rb is_overflow2 rest

/-- The error handling of `do_run_test` for one `blocking_read` (or
`process_data`) result: any failure terminates the main loop with
`OS_ERROR_GENERIC` (`some`), success continues the loop (`none`). -/
def do_run_test_step (ret : OS_Error) : Option OS_Error :=
  if ret = OS_Error.OS_SUCCESS then none else some OS_Error.OS_ERROR_GENERIC

/-- `run` of `uart_tester.c`: the component exit code for a `do_run_test`
result — `-1` for any failure, `0` otherwise. -/
def run_result (ret : OS_Error) : Int :=
  if ret = OS_Error.OS_SUCCESS then 0 else -1

/-- C8 — fatal overflow semantics: in any iteration whose observed
contiguous readable run is empty while the overflow indicator has been
observed set (in this iteration or an earlier one), `blocking_read` returns
`OS_ERROR_OVERFLOW_DETECTED` immediately — independently of any further
observations, with the internal FIFO untouched and nothing released — and
the main loop maps this to `OS_ERROR_GENERIC`, so the caller of `run`
receives the non-zero exit code `-1`. -/
theorem blocking_read_overflow_fatal (rb : ringbuffer_t) (flag : Bool)
    (obs : fifo_obs) (rest : List fifo_obs)
    (hchunk : obs.chunk = []) (hovf : (flag || obs.overflow) = true) :
    blocking_read rb flag (obs :: rest)
        = some (OS_Error.OS_ERROR_OVERFLOW_DETECTED, rb, 0) ∧
    do_run_test_step OS_Error.OS_ERROR_OVERFLOW_DETECTED
        = some OS_Error.OS_ERROR_GENERIC ∧
    run_result OS_Error.OS_ERROR_GENERIC = -1 ∧
    run_result OS_Error.OS_ERROR_GENERIC ≠ 0 := by
  refine ⟨?_, by decide, by decide, by decide⟩
  simp [blocking_read, hchunk, hovf]

/-- C9 — drain exactness: when the observed contiguous run is non-empty,
`blocking_read` copies what fits via `ringbuffer_write` and releases from
the dataport FIFO exactly the count the write accepted — never more than was
copied, so a short (even zero-length, buffer-full) copy leaves the remainder
in the dataport FIFO — and the iteration returns `OS_SUCCESS`: a short copy
is not treated as fatal. -/
theorem blocking_read_drain_exact (rb : ringbuffer_t) (flag : Bool)
    (obs : fifo_obs) (rest : List fifo_obs) (hne : obs.chunk ≠ []) :
    blocking_read rb flag (obs :: rest)
        = some (OS_Error.OS_SUCCESS,
            (ringbuffer_write rb obs.chunk obs.chunk.length).1,
            (ringbuffer_write rb obs.chunk obs.chunk.length).2) ∧
    (ringbuffer_write rb obs.chunk obs.chunk.length).2 ≤ obs.chunk.length := by
  constructor
  · simp only [blocking_read]
    rw [if_pos (List.length_pos.mpr hne)]
    split
    · next h => rw [h]
    · rfl
  · rw [ringbuffer_write_ret]
    omega

/-- C10 — implicit success postcondition of `blocking_read`: whenever it
returns `OS_SUCCESS`, the internal FIFO is non-empty — each success path
either wrote at least one byte, or returned because the buffer was already
completely full, or because it already held data — so the
`assert(!ringbuffer_isEmpty(rb))` in `do_run_test` holds before
`process_data` runs. -/
theorem blocking_read_success_nonempty (rb : ringbuffer_t)
    (hInv : ringbuffer_Inv rb) (hcap : 0 < rb.capacity) :
    ∀ (env : List fifo_obs) (flag : Bool) (res : OS_Error)
      (rb2 : ringbuffer_t) (n : Nat),
      blocking_read rb flag env = some (res, rb2, n) →
      res = OS_Error.OS_SUCCESS →
      0 < rb2.used ∧ ringbuffer_isEmpty rb2 = false := by
  intro env
  induction env with
  | nil =>
    intro flag res rb2 n h
    simp [blocking_read] at h
  | cons obs rest ih =>
    intro flag res rb2 n h hres
    simp only [blocking_read] at h
    by_cases hav : 0 < obs.chunk.length
    · rw [if_pos hav] at h
      by_cases hw0 : (ringbuffer_write rb obs.chunk obs.chunk.length).2 = 0
      · rw [if_pos hw0] at h
        rw [Option.some.injEq, Prod.mk.injEq, Prod.mk.injEq] at h
        obtain ⟨he, hrb, hn⟩ := h
        subst hrb
        have hret := ringbuffer_write_ret rb obs.chunk obs.chunk.length
        rw [hw0] at hret
        obtain ⟨hu, _⟩ := hInv
        rw [ringbuffer_write_ret_zero rb obs.chunk obs.chunk.length hw0]
        constructor
        · omega
        · simp only [ringbuffer_isEmpty]
          simp
          omega
      · rw [if_neg hw0] at h
        rw [Option.some.injEq, Prod.mk.injEq, Prod.mk.injEq] at h
        obtain ⟨he, hrb, hn⟩ := h
        subst hrb
        have hused := ringbuffer_write_used rb obs.chunk obs.chunk.length
        constructor
        · omega
        · simp only [ringbuffer_isEmpty]
          simp
          omega
    · rw [if_neg hav] at h
      by_cases hovf : (flag || obs.overflow) = true
      · rw [if_pos hovf] at h
        rw [Option.some.injEq, Prod.mk.injEq] at h
        obtain ⟨he, _⟩ := h
        rw [← he] at hres
        exact absurd hres (by decide)
      · rw [if_neg hovf] at h
        by_cases hemp : ringbuffer_isEmpty rb = false
        · rw [if_pos hemp] at h
          rw [Option.some.injEq, Prod.mk.injEq, Prod.mk.injEq] at h
          obtain ⟨he, hrb, hn⟩ := h
          subst hrb
          refine ⟨?_, hemp⟩
          simp only [ringbuffer_isEmpty] at hemp
          simp at hemp
          omega
        · rw [if_neg hemp] at h
          exact ih (flag || obs.overflow) res rb2 n h hres

/-- Concrete inputs for the C8 witness. -/
def rbW8 : ringbuffer_t :=
  { buffer := fun _ => 0, capacity := 4, head := 0, used := 2 }

/-- The C8 witness observation: overflow byte set, empty contiguous run. -/
def obsW8 : fifo_obs := { overflow := true, chunk := [] }

/-- Witness for C8 at a concrete state and observation. -/
theorem blocking_read_overflow_fatal_witness :
    obsW8.chunk = [] ∧ (false || obsW8.overflow) = true ∧
    (blocking_read rbW8 false (obsW8 :: [])
        = some (OS_Error.OS_ERROR_OVERFLOW_DETECTED, rbW8, 0) ∧
    do_run_test_step OS_Error.OS_ERROR_OVERFLOW_DETECTED
        = some OS_Error.OS_ERROR_GENERIC ∧
    run_result OS_Error.OS_ERROR_GENERIC = -1 ∧
    run_result OS_Error.OS_ERROR_GENERIC ≠ 0) :=
  ⟨rfl, rfl, blocking_read_overflow_fatal rbW8 false obsW8 [] rfl rfl⟩

/-- Concrete inputs for the C9 witness: the internal FIFO has one free byte,
so the two-byte run is drained short (one byte copied, one byte released,
one byte left in the dataport FIFO). -/
def rbW9 : ringbuffer_t :=
  { buffer := fun _ => 0, capacity := 4, head := 0, used := 3 }

/-- The C9 witness observation: a two-byte contiguous run. -/
def obsW9 : fifo_obs := { overflow := false, chunk := [1, 2] }

/-- Witness for C9 at a concrete state and observation. -/
theorem blocking_read_drain_exact_witness :
    obsW9.chunk ≠ [] ∧
    (blocking_read rbW9 false (obsW9 :: [])
        = some (OS_Error.OS_SUCCESS,
            (ringbuffer_write rbW9 obsW9.chunk obsW9.chunk.length).1,
            (ringbuffer_write rbW9 obsW9.chunk obsW9.chunk.length).2) ∧
    (ringbuffer_write rbW9 obsW9.chunk obsW9.chunk.length).2
        ≤ obsW9.chunk.length) :=
  ⟨by decide, blocking_read_drain_exact rbW9 false obsW9 [] (by decide)⟩

/-- Concrete input for the C10 witness. -/
def rbW10 : ringbuffer_t :=
  { buffer := fun _ => 0, capacity := 4, head := 1, used := 2 }

/-- Witness for C10 at a concrete initial state. -/
theorem blocking_read_success_nonempty_witness :
    ringbuffer_Inv rbW10 ∧ 0 < rbW10.capacity ∧
    (∀ (env : List fifo_obs) (flag : Bool) (res : OS_Error)
      (rb2 : ringbuffer_t) (n : Nat),
      blocking_read rbW10 flag env = some (res, rb2, n) →
      res = OS_Error.OS_SUCCESS →
      0 < rb2.used ∧ ringbuffer_isEmpty rb2 = false) :=
  ⟨by decide, by decide,
    blocking_read_success_nonempty rbW10 (by decide) (by decide)⟩
